import Mathlib

/-!
# Cache-resource locator utilities (src/util/util.cpp, src/util/util.h)

A shallow embedding of the address arithmetic of the utilities.  Values of
type uint64_t are natural numbers, reduced modulo 2^64 wherever the C code can
wrap.  A call of exit(status) is the value exited of Outcome, carrying the
exit status.  Loops that the C code does not bound take a fuel argument;
running out of fuel is the value none.
-/

namespace Util

/-- The constants of machine_const.h, a header the sources include but which
is supplied per machine; every function below takes them as a parameter. -/
structure MachineConst where
  CACHE_BLOCK_SIZE : Nat
  CACHE_BLOCK_SIZE_LOG : Nat
  L1_SET_INDEX_MASK : Nat
  L2_SET_INDEX_MASK : Nat
  LLC_SET_INDEX_PER_SLICE_MASK : Nat
  PAGE_SHIFT : Nat
  PAGEMAP_LENGTH : Nat
  NUM_CORES : Int

/-- What a call of a C function comes to: it returns a value, or the process
ends inside it with exit(status); what was printed before an exit is not
kept. -/
inductive Outcome (α : Type) where
  | returned (v : α)
  | exited (status : Nat)
  deriving DecidableEq, Repr

/-- The modulus of uint64_t arithmetic. -/
def U64 : Nat := 2 ^ 64

/-- The status EXIT_FAILURE of stdlib.h. -/
def EXIT_FAILURE : Nat := 1

/-- util.cpp, get_cache_set_index: mask the address with the mask of the
level, then shift right by CACHE_BLOCK_SIZE_LOG; any other level ends in
exit(EXIT_FAILURE). -/
def get_cache_set_index (mc : MachineConst) (addr : Nat) (cache_level : Int) :
    Outcome Nat :=
  if cache_level = 1 then
    let index := addr &&& mc.L1_SET_INDEX_MASK
    .returned (index >>> mc.CACHE_BLOCK_SIZE_LOG)
  else if cache_level = 2 then
    let index := addr &&& mc.L2_SET_INDEX_MASK
    .returned (index >>> mc.CACHE_BLOCK_SIZE_LOG)
  else if cache_level = 3 then
    let index := addr &&& mc.LLC_SET_INDEX_PER_SLICE_MASK
    .returned (index >>> mc.CACHE_BLOCK_SIZE_LOG)
  else
    .exited EXIT_FAILURE

/-- A synthetic geometry: 64-byte lines, 64 sets per level, set mask 0xFC0,
4 KiB pages, 8-byte pagemap entries, 4 cores. -/
def synthetic : MachineConst where
  CACHE_BLOCK_SIZE := 64
  CACHE_BLOCK_SIZE_LOG := 6
  L1_SET_INDEX_MASK := 0xFC0
  L2_SET_INDEX_MASK := 0xFC0
  LLC_SET_INDEX_PER_SLICE_MASK := 0xFC0
  PAGE_SHIFT := 12
  PAGEMAP_LENGTH := 8
  NUM_CORES := 4

/-- The lines the utilities print on standard output. -/
inductive Msg where
  | page_not_present
  | page_swapped
  | mismatch (va t1 t2 : Nat)
  deriving DecidableEq, Repr

/-- The operating system as get_page_frame_number_of_address and
get_physical_address see it: whether /proc/self/pagemap opens, the value fseek
returns for a file offset, the 64-bit little-endian word fread leaves in
page_frame_number at that offset, and the value of getpagesize(). -/
structure Procfs where
  fopen_ok : Bool
  fseek : Nat → Int
  fread : Nat → Nat
  getpagesize : Nat

/-- util.cpp, the macro GET_BIT(X,Y): (X & ((uint64_t)1 << Y)) >> Y. -/
def GET_BIT (X Y : Nat) : Nat := (X &&& ((1 <<< Y) % U64)) >>> Y

/-- util.cpp, get_page_frame_number_of_address: read the pagemap entry of the
page of the address; with bit 63 set return bits 0-54, otherwise print that the
page is not present (and that it is swapped, with bit 62 set) and return 0.
The test on the value of fread compares an unsigned count with 0 and never
fires, so it has no branch here. -/
def get_page_frame_number_of_address (mc : MachineConst) (os : Procfs) (address : Nat) :
    Outcome (Nat × List Msg) :=
  if os.fopen_ok = false then
    .exited 1
  else
    let offset := ((address >>> mc.PAGE_SHIFT) * mc.PAGEMAP_LENGTH) % U64
    if os.fseek offset ≠ 0 then
      .exited 1
    else
      let page_frame_number := os.fread offset % U64
      if GET_BIT page_frame_number 63 ≠ 0 then
        .returned (page_frame_number &&& 0x7FFFFFFFFFFFFF, [])
      else if GET_BIT page_frame_number 62 ≠ 0 then
        .returned (0, [Msg.page_not_present, Msg.page_swapped])
      else
        .returned (0, [Msg.page_not_present])

/-- util.cpp, get_physical_address: the frame number is stored in an unsigned
int (32 bits), shifted left by PAGE_SHIFT as a uint64_t, and the distance of
the address from its page boundary is added. -/
def get_physical_address (mc : MachineConst) (os : Procfs) (address : Nat) :
    Outcome (Nat × List Msg) :=
  match get_page_frame_number_of_address mc os address with
  | .exited status => .exited status
  | .returned (pfn, out) =>
    let page_frame_number := pfn % 2 ^ 32
    let distance_from_page_boundary := address % os.getpagesize
    let physical_address :=
      ((page_frame_number <<< mc.PAGE_SHIFT) % U64 + distance_from_page_boundary) % U64
    .returned (physical_address, out)

/-- util.h, pin_cpu: a negative value of sched_setaffinity prints a line and
ends the process with exit(EXIT_FAILURE). -/
def pin_cpu (sched_setaffinity : Nat → Int) (core_ID : Nat) : Outcome Unit :=
  if sched_setaffinity core_ID < 0 then
    .exited EXIT_FAILURE
  else
    .returned ()

/-- util.cpp, struct job_info_timing (the address, the number of loads, the
elapsed time written back, the core). -/
structure job_info_timing where
  va : Nat
  repeat_ : Nat
  elapsed : Nat
  cpu_id : Nat
  deriving DecidableEq, Repr

/-- util.cpp, struct job_info. -/
structure job_info where
  va : Nat
  cpu_id : Nat
  deriving DecidableEq, Repr

/-- What one run of the prober task did: the job record as it leaves it and
the number of loads of the timed burst. -/
structure ProbeRun where
  ji : job_info_timing
  loads : Nat
  deriving DecidableEq, Repr

/-- util.cpp, probe_thread_timing, once the loader has signalled its start:
sched_setaffinity is called and its value dropped, the counter is read
(start), the address is loaded repeat times, the counter is read again
(stop), and stop - start is stored in the job record. -/
def probe_thread_timing (sched_setaffinity : Nat → Int) (start stop : Nat)
    (ji : job_info_timing) : Outcome ProbeRun :=
  let _ := sched_setaffinity ji.cpu_id
  let elapsed := (stop % U64 + U64 - start % U64) % U64
  .returned ⟨{ ji with elapsed := elapsed }, ji.repeat_⟩

/-- util.cpp, load_thread_timing, for a loader that finds keep_running set
rounds times before the flag is cleared: sched_setaffinity is called and its
value dropped, the start is signalled, and the cell at the address is
incremented once per round.  The value is the cell at the end. -/
def load_thread_timing (sched_setaffinity : Nat → Int) (rounds cell : Nat)
    (ji : job_info) : Outcome Nat :=
  let _ := sched_setaffinity ji.cpu_id
  .returned ((cell + rounds) % U64)

/-- util.cpp, find_closest_slice, the sweep: the state is probe_cpu,
shortest_time and shortest_cpu; elapsed gives the uint64_t the prober task
records in ji_p.elapsed for a prober core.  One unit of fuel is one test of the
loop condition. -/
def find_closest_slice_loop (mc : MachineConst) (elapsed : Nat → Nat) :
    Nat → Nat → Nat → Nat → Option Nat
  | 0, _, _, _ => none
  | fuel + 1, probe_cpu, shortest_time, shortest_cpu =>
    if (probe_cpu : Int) < mc.NUM_CORES then
      if elapsed probe_cpu < shortest_time then
        find_closest_slice_loop mc elapsed fuel (probe_cpu + 2) (elapsed probe_cpu) probe_cpu
      else
        find_closest_slice_loop mc elapsed fuel (probe_cpu + 2) shortest_time shortest_cpu
    else
      some shortest_cpu

/-- util.cpp, find_closest_slice: shortest_time starts at 1000000000 and
shortest_cpu at (uint64_t)-1; the sweep tests its condition at most
NUM_CORES + 1 times. -/
def find_closest_slice (mc : MachineConst) (elapsed : Nat → Nat) : Option Nat :=
  find_closest_slice_loop mc elapsed (mc.NUM_CORES.toNat + 1) 0 1000000000 (U64 - 1)

/-- util.cpp, get_cache_slice_index, the retry loop: trial i is the value of
the i-th call of find_closest_slice; calls counts the calls made so far and
out the lines printed so far.  One unit of fuel is one round of two trials. -/
def get_cache_slice_index_loop (trial : Nat → Nat) (va : Nat) :
    Nat → Nat → List Msg → Option (Nat × List Msg)
  | 0, _, _ => none
  | fuel + 1, calls, out =>
    let t1 := trial calls
    let t2 := trial (calls + 1)
    if t1 ≠ t2 then
      get_cache_slice_index_loop trial va fuel (calls + 2) (out ++ [Msg.mismatch va t1 t2])
    else
      some (t1, out)

/-- util.cpp, get_cache_slice_index, run for at most fuel rounds. -/
def get_cache_slice_index (trial : Nat → Nat) (va : Nat) (fuel : Nat) :
    Option (Nat × List Msg) :=
  get_cache_slice_index_loop trial va fuel 0 []

/-- util.cpp, find_next_address_on_slice_and_set, the scan: slice is
get_cache_slice_index as a function of the address; the state is offset.
One unit of fuel is one test of the loop condition. -/
def find_next_address_on_slice_and_set_loop (mc : MachineConst) (slice : Nat → Nat)
    (va desired_slice desired_set : Nat) : Nat → Nat → Option (Outcome Nat)
  | 0, _ => none
  | fuel + 1, offset =>
    match get_cache_set_index mc ((va + offset) % U64) 3 with
    | .exited status => some (.exited status)
    | .returned set_index =>
      if set_index ≠ desired_set ∨ desired_slice ≠ slice ((va + offset) % U64) then
        find_next_address_on_slice_and_set_loop mc slice va desired_slice desired_set fuel
          ((offset + mc.CACHE_BLOCK_SIZE) % U64)
      else
        some (.returned offset)

/-- util.cpp, find_next_address_on_slice_and_set, run for at most fuel tests
of the loop condition, from offset 0. -/
def find_next_address_on_slice_and_set (mc : MachineConst) (slice : Nat → Nat)
    (va desired_slice desired_set : Nat) (fuel : Nat) : Option (Outcome Nat) :=
  find_next_address_on_slice_and_set_loop mc slice va desired_slice desired_set fuel 0

/-- util.h, wait_cycles, the polling loop: get_time i is the uint64_t that
the call number i of get_time returns; calls counts the readings taken so far
and cycles is the last of them.  The value is the number of readings taken and
the last reading.  One unit of fuel is one test of the loop condition. -/
def wait_cycles_loop (get_time : Nat → Nat) (end_ : Nat) :
    Nat → Nat → Nat → Option (Nat × Nat)
  | 0, _, _ => none
  | fuel + 1, calls, cycles =>
    if cycles < end_ then
      wait_cycles_loop get_time end_ fuel (calls + 1) (get_time calls)
    else
      some (calls, cycles)

/-- util.h, wait_cycles: the first reading plus the delay, as a uint64_t, is
the end of the wait; then the polling loop runs, for at most fuel tests of its
condition. -/
def wait_cycles (get_time : Nat → Nat) (delay : Nat) (fuel : Nat) : Option (Nat × Nat) :=
  let cycles := get_time 0
  let end_ := (cycles + delay) % U64
  wait_cycles_loop get_time end_ fuel 1 cycles

/-- The geometry of the comment above get_cache_set_index: L1 sets in bits
[11-6], L2 and LLC sets in bits [15-6], 64-byte lines, 4 KiB pages. -/
def commented : MachineConst where
  CACHE_BLOCK_SIZE := 64
  CACHE_BLOCK_SIZE_LOG := 6
  L1_SET_INDEX_MASK := 0xFC0
  L2_SET_INDEX_MASK := 0xFFC0
  LLC_SET_INDEX_PER_SLICE_MASK := 0xFFC0
  PAGE_SHIFT := 12
  PAGEMAP_LENGTH := 8
  NUM_CORES := 4

/-- A pagemap that opens, seeks without error and holds the same 64-bit entry
for every page, on a system with 4 KiB pages. -/
def procfs_const (entry : Nat) : Procfs where
  fopen_ok := true
  fseek := fun _ => 0
  fread := fun _ => entry
  getpagesize := 4096

/-! ## Set index -/

/-- Masking with a mask that was shifted left by k and shifting the result
right by k is masking the shifted value. -/
theorem and_shiftLeft_shiftRight (a m k : Nat) :
    (a &&& (m <<< k)) >>> k = (a >>> k) &&& m := by
  apply Nat.eq_of_testBit_eq
  intro j
  simp [Nat.testBit_shiftRight, Nat.testBit_shiftLeft]

/-- C1: for every address and each of the levels 1, 2 and 3,
get_cache_set_index returns the address masked with the mask of the level and
shifted right by CACHE_BLOCK_SIZE_LOG; with shift 6 and LLC mask 0xFC0 the
address 0x1000 has LLC set index 0 and the address 0x1FC0 has LLC set index
63. -/
theorem get_cache_set_index_mask_shift (mc : MachineConst) (a : Nat) :
    get_cache_set_index mc a 1
        = .returned ((a &&& mc.L1_SET_INDEX_MASK) >>> mc.CACHE_BLOCK_SIZE_LOG) ∧
    get_cache_set_index mc a 2
        = .returned ((a &&& mc.L2_SET_INDEX_MASK) >>> mc.CACHE_BLOCK_SIZE_LOG) ∧
    get_cache_set_index mc a 3
        = .returned ((a &&& mc.LLC_SET_INDEX_PER_SLICE_MASK) >>> mc.CACHE_BLOCK_SIZE_LOG) ∧
    (mc.CACHE_BLOCK_SIZE_LOG = 6 → mc.LLC_SET_INDEX_PER_SLICE_MASK = 0xFC0 →
      get_cache_set_index mc 0x1000 3 = .returned 0 ∧
      get_cache_set_index mc 0x1FC0 3 = .returned 63) := by
  refine ⟨rfl, rfl, rfl, ?_⟩
  intro hlog hmask
  simp only [get_cache_set_index, hlog, hmask]
  simp
  decide

/-- C1 at the synthetic geometry and the address 0x1FC0. -/
theorem get_cache_set_index_mask_shift_witness :
    get_cache_set_index synthetic 0x1FC0 3 = .returned ((0x1FC0 &&& 0xFC0) >>> 6) ∧
    get_cache_set_index synthetic 0x1000 3 = .returned 0 ∧
    get_cache_set_index synthetic 0x1FC0 3 = .returned 63 :=
  ⟨(get_cache_set_index_mask_shift synthetic 0x1FC0).2.2.1,
   (get_cache_set_index_mask_shift synthetic 0x1FC0).2.2.2 rfl rfl⟩

/-- C2: when the mask of a level is (sets - 1) shifted left by
CACHE_BLOCK_SIZE_LOG for a power of two sets, the set index that
get_cache_set_index returns at that level is below sets, for every address
(a 64-bit address is a natural number below 2^64). -/
theorem get_cache_set_index_lt_sets (mc : MachineConst) (a sets : Nat)
    (hpow : ∃ k, sets = 2 ^ k) :
    (mc.L1_SET_INDEX_MASK = (sets - 1) <<< mc.CACHE_BLOCK_SIZE_LOG →
      ∃ i, get_cache_set_index mc a 1 = .returned i ∧ i < sets) ∧
    (mc.L2_SET_INDEX_MASK = (sets - 1) <<< mc.CACHE_BLOCK_SIZE_LOG →
      ∃ i, get_cache_set_index mc a 2 = .returned i ∧ i < sets) ∧
    (mc.LLC_SET_INDEX_PER_SLICE_MASK = (sets - 1) <<< mc.CACHE_BLOCK_SIZE_LOG →
      ∃ i, get_cache_set_index mc a 3 = .returned i ∧ i < sets) := by
  obtain ⟨k, rfl⟩ := hpow
  have hpos : 0 < 2 ^ k := Nat.two_pow_pos k
  have key : ∀ m, m = (2 ^ k - 1) <<< mc.CACHE_BLOCK_SIZE_LOG →
      (a &&& m) >>> mc.CACHE_BLOCK_SIZE_LOG < 2 ^ k := by
    intro m hm
    rw [hm, and_shiftLeft_shiftRight]
    have := @Nat.and_le_right (a >>> mc.CACHE_BLOCK_SIZE_LOG) (2 ^ k - 1)
    omega
  exact ⟨fun h => ⟨_, rfl, key _ h⟩, fun h => ⟨_, rfl, key _ h⟩, fun h => ⟨_, rfl, key _ h⟩⟩

/-- C2 at the synthetic geometry (64 sets, mask 0xFC0, shift 6) and the
address 0x1FC0. -/
theorem get_cache_set_index_lt_sets_witness :
    ∃ i, get_cache_set_index synthetic 0x1FC0 3 = .returned i ∧ i < 64 :=
  (get_cache_set_index_lt_sets synthetic 0x1FC0 64 ⟨6, by decide⟩).2.2 (by decide)

/-- C3: get_cache_set_index ends in exit(EXIT_FAILURE) exactly when the level
is none of 1, 2, 3, and at the levels 1, 2, 3 it returns a set index. -/
theorem get_cache_set_index_exits_iff (mc : MachineConst) (a : Nat) (level : Int) :
    ((∃ status, get_cache_set_index mc a level = .exited status) ↔
        ¬ (level = 1 ∨ level = 2 ∨ level = 3)) ∧
    (get_cache_set_index mc a level = .exited EXIT_FAILURE ↔
        ¬ (level = 1 ∨ level = 2 ∨ level = 3)) ∧
    ((level = 1 ∨ level = 2 ∨ level = 3) →
        ∃ i, get_cache_set_index mc a level = .returned i) := by
  unfold get_cache_set_index
  by_cases h1 : level = 1
  · simp [h1]
  · by_cases h2 : level = 2
    · simp [h2]
    · by_cases h3 : level = 3
      · simp [h3]
      · simp [h1, h2, h3]

/-- C3 at the synthetic geometry: level 3 returns, level 4 exits. -/
theorem get_cache_set_index_exits_iff_witness :
    (∃ i, get_cache_set_index synthetic 0x1FC0 3 = .returned i) ∧
    get_cache_set_index synthetic 0x1FC0 4 = .exited EXIT_FAILURE :=
  ⟨(get_cache_set_index_exits_iff synthetic 0x1FC0 3).2.2 (by decide),
   (get_cache_set_index_exits_iff synthetic 0x1FC0 4).2.1.2 (by decide)⟩

/-! ## Physical address -/

/-- The macro GET_BIT reads bit Y of X, for a bit position below 64. -/
theorem GET_BIT_eq (X Y : Nat) (hY : Y < 64) :
    GET_BIT X Y = if X.testBit Y then 1 else 0 := by
  have h1 : (1 <<< Y) % U64 = 1 <<< Y := by
    apply Nat.mod_eq_of_lt
    rw [Nat.shiftLeft_eq, Nat.one_mul]
    exact Nat.pow_lt_pow_right (by decide) hY
  unfold GET_BIT
  rw [h1, and_shiftLeft_shiftRight, Nat.and_one_is_mod, Nat.testBit_to_div_mod,
    Nat.shiftRight_eq_div_pow]
  by_cases h : X / 2 ^ Y % 2 = 1
  · simp [h]
  · have : X / 2 ^ Y % 2 = 0 := by omega
    simp [this]

/-- For a pagemap that opens and seeks, and an entry e with bit 63 set,
get_page_frame_number_of_address returns bits 0-54 of e and prints nothing. -/
theorem get_page_frame_number_of_address_present (mc : MachineConst) (os : Procfs)
    (a e : Nat) (hopen : os.fopen_ok = true)
    (hseek : os.fseek (((a >>> mc.PAGE_SHIFT) * mc.PAGEMAP_LENGTH) % U64) = 0)
    (hread : os.fread (((a >>> mc.PAGE_SHIFT) * mc.PAGEMAP_LENGTH) % U64) % U64 = e)
    (hpresent : e.testBit 63 = true) :
    get_page_frame_number_of_address mc os a = .returned (e % 2 ^ 55, []) := by
  have hbit : GET_BIT e 63 ≠ 0 := by
    rw [GET_BIT_eq e 63 (by decide), hpresent]
    decide
  have hmask : e &&& 0x7FFFFFFFFFFFFF = e % 2 ^ 55 :=
    Nat.and_pow_two_sub_one_eq_mod e 55
  simp only [get_page_frame_number_of_address, hopen, hseek, hread]
  simp [hbit, hmask]

/-- For a pagemap that opens and seeks, and an entry e with bit 63 clear,
get_page_frame_number_of_address returns 0 after printing that the page is not
present, and that it is swapped when bit 62 is set. -/
theorem get_page_frame_number_of_address_absent (mc : MachineConst) (os : Procfs)
    (a e : Nat) (hopen : os.fopen_ok = true)
    (hseek : os.fseek (((a >>> mc.PAGE_SHIFT) * mc.PAGEMAP_LENGTH) % U64) = 0)
    (hread : os.fread (((a >>> mc.PAGE_SHIFT) * mc.PAGEMAP_LENGTH) % U64) % U64 = e)
    (habsent : e.testBit 63 = false) :
    get_page_frame_number_of_address mc os a =
      .returned (0, if e.testBit 62 then [Msg.page_not_present, Msg.page_swapped]
                    else [Msg.page_not_present]) := by
  have hbit : GET_BIT e 63 = 0 := by
    rw [GET_BIT_eq e 63 (by decide), habsent]
    decide
  simp only [get_page_frame_number_of_address, hopen, hseek, hread]
  rw [GET_BIT_eq e 62 (by decide)]
  by_cases h62 : e.testBit 62 = true
  · simp [hbit, h62]
  · simp [hbit, h62]

/-- Two numbers that agree modulo 2^n have the same bits under a mask below
2^n. -/
theorem and_eq_of_mod_two_pow_eq (x y m n : Nat) (h : x % 2 ^ n = y % 2 ^ n)
    (hm : m < 2 ^ n) : x &&& m = y &&& m := by
  apply Nat.eq_of_testBit_eq
  intro i
  rw [Nat.testBit_and, Nat.testBit_and]
  by_cases hi : i < n
  · have hx : x.testBit i = y.testBit i := by
      have h1 := Nat.testBit_mod_two_pow x n i
      have h2 := Nat.testBit_mod_two_pow y n i
      rw [h, h2] at h1
      simpa [hi] using h1.symm
    rw [hx]
  · have : m.testBit i = false := by
      apply Nat.testBit_lt_two_pow
      exact Nat.lt_of_lt_of_le hm (Nat.pow_le_pow_right (by decide) (by omega))
    simp [this]

/-- With PAGE_SHIFT = 12 and 4 KiB pages, the value of get_physical_address on
a present page is the low 32 bits of the frame number times 4096 plus the
offset of the address in its page. -/
theorem get_physical_address_present (mc : MachineConst) (os : Procfs) (a e : Nat)
    (hshift : mc.PAGE_SHIFT = 12) (hpage : os.getpagesize = 4096)
    (hopen : os.fopen_ok = true)
    (hseek : os.fseek (((a >>> mc.PAGE_SHIFT) * mc.PAGEMAP_LENGTH) % U64) = 0)
    (hread : os.fread (((a >>> mc.PAGE_SHIFT) * mc.PAGEMAP_LENGTH) % U64) % U64 = e)
    (hpresent : e.testBit 63 = true) :
    get_physical_address mc os a
      = .returned (e % 2 ^ 55 % 2 ^ 32 * 4096 + a % 4096, []) := by
  have hpfn := get_page_frame_number_of_address_present mc os a e hopen hseek hread hpresent
  simp only [get_physical_address, hpfn, hpage, hshift, Nat.shiftLeft_eq, U64]
  congr 2
  omega

/-- C4: with PAGE_SHIFT = 12 and 4 KiB pages, for an address a on a present
page with frame number f: when the low 9 bits of f are bits 12..20 of a (a
2 MiB huge page) and the LLC mask is below 2^21, the LLC set index of
get_physical_address(a) is the LLC set index of a; and when the L1 mask is
below 2^12, the L1 set index of get_physical_address(a) is the L1 set index of
a, whatever f is. -/
theorem set_index_physical_eq_virtual (mc : MachineConst) (os : Procfs) (a e f : Nat)
    (hshift : mc.PAGE_SHIFT = 12) (hpage : os.getpagesize = 4096)
    (hopen : os.fopen_ok = true)
    (hseek : os.fseek (((a >>> mc.PAGE_SHIFT) * mc.PAGEMAP_LENGTH) % U64) = 0)
    (hread : os.fread (((a >>> mc.PAGE_SHIFT) * mc.PAGEMAP_LENGTH) % U64) % U64 = e)
    (hpresent : e.testBit 63 = true) (hf : e % 2 ^ 55 = f) :
    (f % 512 = a / 4096 % 512 → mc.LLC_SET_INDEX_PER_SLICE_MASK < 2 ^ 21 →
      ∃ p out, get_physical_address mc os a = .returned (p, out) ∧
        get_cache_set_index mc p 3 = get_cache_set_index mc a 3) ∧
    (mc.L1_SET_INDEX_MASK < 2 ^ 12 →
      ∃ p out, get_physical_address mc os a = .returned (p, out) ∧
        get_cache_set_index mc p 1 = get_cache_set_index mc a 1) := by
  have hpa := get_physical_address_present mc os a e hshift hpage hopen hseek hread hpresent
  rw [hf] at hpa
  constructor
  · intro hhuge hmask
    refine ⟨_, _, hpa, ?_⟩
    have hmod : (f % 2 ^ 32 * 4096 + a % 4096) % 2 ^ 21 = a % 2 ^ 21 := by omega
    simp only [get_cache_set_index]
    rw [and_eq_of_mod_two_pow_eq _ _ _ 21 hmod hmask]
    rfl
  · intro hmask
    refine ⟨_, _, hpa, ?_⟩
    have hmod : (f % 2 ^ 32 * 4096 + a % 4096) % 2 ^ 12 = a % 2 ^ 12 := by omega
    simp only [get_cache_set_index]
    rw [and_eq_of_mod_two_pow_eq _ _ _ 12 hmod hmask]
    rfl

/-- C4 at the commented geometry: the address 0x5234 on a present page with
frame number 517, whose low 9 bits are 5, bits 12..20 of the address. -/
theorem set_index_physical_eq_virtual_witness :
    (∃ p out, get_physical_address commented (procfs_const (2 ^ 63 + 517)) 0x5234
        = .returned (p, out) ∧
      get_cache_set_index commented p 3 = get_cache_set_index commented 0x5234 3) ∧
    (∃ p out, get_physical_address commented (procfs_const (2 ^ 63 + 517)) 0x5234
        = .returned (p, out) ∧
      get_cache_set_index commented p 1 = get_cache_set_index commented 0x5234 1) :=
  ⟨(set_index_physical_eq_virtual commented (procfs_const (2 ^ 63 + 517)) 0x5234
      (2 ^ 63 + 517) 517 rfl rfl rfl rfl (by decide) (by decide) (by decide)).1
      (by decide) (by decide),
   (set_index_physical_eq_virtual commented (procfs_const (2 ^ 63 + 517)) 0x5234
      (2 ^ 63 + 517) 517 rfl rfl rfl rfl (by decide) (by decide) (by decide)).2
      (by decide)⟩

/-- With PAGE_SHIFT = 12 and 4 KiB pages, on a present page whose frame number
is below 2^32 the value of get_physical_address is the frame number shifted
left by 12, or-ed with the address modulo 4096. -/
theorem get_physical_address_small_frame (mc : MachineConst) (os : Procfs) (a e f : Nat)
    (hshift : mc.PAGE_SHIFT = 12) (hpage : os.getpagesize = 4096)
    (hopen : os.fopen_ok = true)
    (hseek : os.fseek (((a >>> mc.PAGE_SHIFT) * mc.PAGEMAP_LENGTH) % U64) = 0)
    (hread : os.fread (((a >>> mc.PAGE_SHIFT) * mc.PAGEMAP_LENGTH) % U64) % U64 = e)
    (hpresent : e.testBit 63 = true) (hf : e % 2 ^ 55 = f) (hsmall : f < 2 ^ 32) :
    get_physical_address mc os a = .returned ((f <<< 12) ||| (a % 4096), []) := by
  rw [get_physical_address_present mc os a e hshift hpage hopen hseek hread hpresent, hf,
    Nat.mod_eq_of_lt hsmall, Nat.shiftLeft_eq, Nat.mul_comm f (2 ^ 12)]
  have hlt : a % 4096 < 2 ^ 12 := by omega
  rw [← Nat.mul_add_lt_is_or hlt f]
  congr 2
  omega

/-- C5, the code at a frame number that needs more than 32 bits: the pagemap
entry 2^63 + 2^32 is present with frame number 2^32, and for the address
0x1234 get_physical_address returns 0x234, not (2^32 << 12) | 0x234
= 0x100000000234. -/
theorem get_physical_address_drops_high_frame_bits :
    (2 ^ 63 + 2 ^ 32).testBit 63 = true ∧
    (2 ^ 63 + 2 ^ 32) % 2 ^ 55 = 2 ^ 32 ∧
    get_physical_address synthetic (procfs_const (2 ^ 63 + 2 ^ 32)) 0x1234
      = .returned (0x234, []) ∧
    ((2 ^ 32) <<< synthetic.PAGE_SHIFT) ||| (0x1234 % 2 ^ synthetic.PAGE_SHIFT)
      = 0x100000000234 := by
  decide

/-- C6 as stated fails: the pagemap entry 0 has bit 63 clear, and for the
address 0x1234 get_physical_address returns the value 0x234 to its caller. -/
theorem get_physical_address_absent_returns :
    (0 : Nat).testBit 63 = false ∧
    get_physical_address synthetic (procfs_const 0) 0x1234
      = .returned (0x234, [Msg.page_not_present]) ∧
    ¬ (∀ r, get_physical_address synthetic (procfs_const 0) 0x1234 ≠ .returned r) := by
  refine ⟨by decide, by decide, ?_⟩
  intro h
  exact h (0x234, [Msg.page_not_present]) (by decide)

/-- C6 amended: for a 64-bit address whose pagemap entry has bit 63 clear,
get_physical_address does not fail: it prints that the page is not present
(and that it is swapped, when bit 62 is set) and returns the address modulo
the page size, the frame number 0 with the offset in the page. -/
theorem get_physical_address_absent (mc : MachineConst) (os : Procfs) (a e : Nat)
    (ha : a < U64) (hopen : os.fopen_ok = true)
    (hseek : os.fseek (((a >>> mc.PAGE_SHIFT) * mc.PAGEMAP_LENGTH) % U64) = 0)
    (hread : os.fread (((a >>> mc.PAGE_SHIFT) * mc.PAGEMAP_LENGTH) % U64) % U64 = e)
    (habsent : e.testBit 63 = false) :
    get_physical_address mc os a =
      .returned (a % os.getpagesize,
        if e.testBit 62 then [Msg.page_not_present, Msg.page_swapped]
        else [Msg.page_not_present]) := by
  have hpfn := get_page_frame_number_of_address_absent mc os a e hopen hseek hread habsent
  have hle : a % os.getpagesize < U64 := Nat.lt_of_le_of_lt (Nat.mod_le _ _) ha
  simp only [get_physical_address, hpfn]
  simp [Nat.mod_eq_of_lt hle]

/-- C6 amended, at a swapped page: the entry 2^62 and the address 0x1234. -/
theorem get_physical_address_absent_witness :
    get_physical_address synthetic (procfs_const (2 ^ 62)) 0x1234 =
      .returned (0x1234 % 4096,
        if (2 ^ 62).testBit 62 then [Msg.page_not_present, Msg.page_swapped]
        else [Msg.page_not_present]) :=
  get_physical_address_absent synthetic (procfs_const (2 ^ 62)) 0x1234 (2 ^ 62)
    (by decide) rfl rfl (by decide) (by decide)

/-! ## Closest slice -/

/-- The sweep of find_closest_slice, from any state with enough fuel: it
returns, and either no remaining prober core is below shortest_time and the
result is shortest_cpu, or the result is a remaining prober core below
shortest_time whose time is a minimum over the remaining prober cores and
strictly below the time of every earlier one. -/
theorem find_closest_slice_loop_spec (mc : MachineConst) (elapsed : Nat → Nat) :
    ∀ fuel probe_cpu shortest_time shortest_cpu : Nat,
      mc.NUM_CORES + 2 ≤ (probe_cpu : Int) + 2 * (fuel : Int) → 1 ≤ fuel →
      ∃ r, find_closest_slice_loop mc elapsed fuel probe_cpu shortest_time shortest_cpu = some r ∧
        ((r = shortest_cpu ∧
            ∀ p : Nat, probe_cpu ≤ p → p % 2 = probe_cpu % 2 → (p : Int) < mc.NUM_CORES →
              shortest_time ≤ elapsed p) ∨
         (probe_cpu ≤ r ∧ r % 2 = probe_cpu % 2 ∧ (r : Int) < mc.NUM_CORES ∧
            elapsed r < shortest_time ∧
            (∀ p : Nat, probe_cpu ≤ p → p % 2 = probe_cpu % 2 → (p : Int) < mc.NUM_CORES →
              elapsed r ≤ elapsed p) ∧
            (∀ p : Nat, probe_cpu ≤ p → p % 2 = probe_cpu % 2 → p < r →
              elapsed r < elapsed p))) := by
  intro fuel
  induction fuel with
  | zero => intro _ _ _ _ h; omega
  | succ fuel ih =>
    intro pc st sc hfuel _
    by_cases hguard : (pc : Int) < mc.NUM_CORES
    · have hf1 : mc.NUM_CORES + 2 ≤ ((pc + 2 : Nat) : Int) + 2 * (fuel : Int) := by
        push_cast at hfuel ⊢; omega
      have hf2 : 1 ≤ fuel := by push_cast at hfuel; omega
      have split_p : ∀ p : Nat, pc ≤ p → p % 2 = pc % 2 →
          p = pc ∨ (pc + 2 ≤ p ∧ p % 2 = (pc + 2) % 2) := by
        intro p h1 h2; omega
      by_cases hlt : elapsed pc < st
      · obtain ⟨r, hr, hcase⟩ := ih (pc + 2) (elapsed pc) pc hf1 hf2
        refine ⟨r, by simp [find_closest_slice_loop, hguard, hlt, hr], Or.inr ?_⟩
        rcases hcase with ⟨hrsc, hall⟩ | ⟨hle, hpar, hrN, hrlt, hmin, hfirst⟩
        · subst hrsc
          refine ⟨Nat.le_refl _, rfl, hguard, hlt, ?_, ?_⟩
          · intro p h1 h2 h3
            rcases split_p p h1 h2 with rfl | ⟨h4, h5⟩
            · exact Nat.le_refl _
            · exact hall p h4 h5 h3
          · intro p h1 _ h3; omega
        · refine ⟨by omega, by omega, hrN, by omega, ?_, ?_⟩
          · intro p h1 h2 h3
            rcases split_p p h1 h2 with rfl | ⟨h4, h5⟩
            · omega
            · exact hmin p h4 h5 h3
          · intro p h1 h2 h3
            rcases split_p p h1 h2 with rfl | ⟨h4, h5⟩
            · exact hrlt
            · exact hfirst p h4 h5 h3
      · obtain ⟨r, hr, hcase⟩ := ih (pc + 2) st sc hf1 hf2
        refine ⟨r, by simp [find_closest_slice_loop, hguard, hlt, hr], ?_⟩
        rcases hcase with ⟨hrsc, hall⟩ | ⟨hle, hpar, hrN, hrlt, hmin, hfirst⟩
        · refine Or.inl ⟨hrsc, ?_⟩
          intro p h1 h2 h3
          rcases split_p p h1 h2 with rfl | ⟨h4, h5⟩
          · omega
          · exact hall p h4 h5 h3
        · refine Or.inr ⟨by omega, by omega, hrN, hrlt, ?_, ?_⟩
          · intro p h1 h2 h3
            rcases split_p p h1 h2 with rfl | ⟨h4, h5⟩
            · omega
            · exact hmin p h4 h5 h3
          · intro p h1 h2 h3
            rcases split_p p h1 h2 with rfl | ⟨h4, h5⟩
            · omega
            · exact hfirst p h4 h5 h3
    · refine ⟨sc, by simp [find_closest_slice_loop, hguard], Or.inl ⟨rfl, ?_⟩⟩
      intro p h1 _ h3
      omega

/-- The fuel find_closest_slice gives its sweep is enough: it always returns. -/
theorem find_closest_slice_returns (mc : MachineConst) (elapsed : Nat → Nat) :
    ∃ r, find_closest_slice mc elapsed = some r := by
  obtain ⟨r, hr, _⟩ := find_closest_slice_loop_spec mc elapsed (mc.NUM_CORES.toNat + 1) 0
    1000000000 (U64 - 1) (by omega) (by omega)
  exact ⟨r, hr⟩

/-- C7 as stated fails: with NUM_CORES = 4 the prober cores are 0 and 2, and
when each records 1000000000 cycles find_closest_slice returns 2^64 - 1, which
is not a prober core of the sweep. -/
theorem find_closest_slice_no_prober_counterexample :
    find_closest_slice synthetic (fun _ => 1000000000) = some (2 ^ 64 - 1) ∧
    ¬ (∃ c : Nat, find_closest_slice synthetic (fun _ => 1000000000) = some c ∧
        c % 2 = 0 ∧ (c : Int) < synthetic.NUM_CORES ∧
        ∀ p : Nat, p % 2 = 0 → (p : Int) < synthetic.NUM_CORES →
          (fun _ => 1000000000) c ≤ (fun _ : Nat => 1000000000) p) := by
  have h : find_closest_slice synthetic (fun _ => 1000000000) = some (2 ^ 64 - 1) := by decide
  refine ⟨h, ?_⟩
  rintro ⟨c, hc, _, hlt, _⟩
  rw [h] at hc
  have hc2 : c = 2 ^ 64 - 1 := (Option.some.inj hc).symm
  subst hc2
  revert hlt
  decide

/-- C7 amended: when some prober core (an even core below NUM_CORES) records
an elapsed time below 1000000000, find_closest_slice returns a prober core
whose elapsed time is at most the elapsed time of every prober core. -/
theorem find_closest_slice_minimum (mc : MachineConst) (elapsed : Nat → Nat)
    (hbelow : ∃ q : Nat, q % 2 = 0 ∧ (q : Int) < mc.NUM_CORES ∧ elapsed q < 1000000000) :
    ∃ c : Nat, find_closest_slice mc elapsed = some c ∧
      c % 2 = 0 ∧ (c : Int) < mc.NUM_CORES ∧
      ∀ p : Nat, p % 2 = 0 → (p : Int) < mc.NUM_CORES → elapsed c ≤ elapsed p := by
  obtain ⟨q, hq2, hqN, hqlt⟩ := hbelow
  obtain ⟨r, hr, hcase⟩ := find_closest_slice_loop_spec mc elapsed (mc.NUM_CORES.toNat + 1) 0
    1000000000 (U64 - 1) (by omega) (by omega)
  refine ⟨r, hr, ?_⟩
  rcases hcase with ⟨_, hall⟩ | ⟨_, hpar, hrN, _, hmin, _⟩
  · have := hall q (Nat.zero_le _) (by omega) hqN
    omega
  · refine ⟨by omega, hrN, ?_⟩
    intro p hp2 hpN
    exact hmin p (Nat.zero_le _) (by omega) hpN

/-- C7 amended, at NUM_CORES = 4 with 9 cycles on core 0 and 5 on core 2. -/
theorem find_closest_slice_minimum_witness :
    ∃ c : Nat, find_closest_slice synthetic (fun p => if p = 2 then 5 else 9) = some c ∧
      c % 2 = 0 ∧ (c : Int) < synthetic.NUM_CORES ∧
      ∀ p : Nat, p % 2 = 0 → (p : Int) < synthetic.NUM_CORES →
        (fun p => if p = 2 then 5 else 9) c ≤ (fun p => if p = 2 then 5 else 9) p :=
  find_closest_slice_minimum synthetic (fun p => if p = 2 then 5 else 9)
    ⟨2, by decide, by decide, by decide⟩

/-! ## Slice index by agreeing trials -/

/-- The retry loop of get_cache_slice_index from any state: a returned value
is the common value of the first agreeing pair of trials at or after calls, and
that pair is reached within the fuel. -/
theorem get_cache_slice_index_loop_sound (trial : Nat → Nat) (va : Nat) :
    ∀ (fuel calls : Nat) (out : List Msg) (v : Nat) (out2 : List Msg),
      get_cache_slice_index_loop trial va fuel calls out = some (v, out2) →
      ∃ k, k < fuel ∧ trial (calls + 2 * k) = v ∧ trial (calls + 2 * k + 1) = v ∧
        ∀ j, j < k → trial (calls + 2 * j) ≠ trial (calls + 2 * j + 1) := by
  intro fuel
  induction fuel with
  | zero => intro calls out v out2 h; simp [get_cache_slice_index_loop] at h
  | succ fuel ih =>
    intro calls out v out2 h
    by_cases hne : trial calls ≠ trial (calls + 1)
    · simp only [get_cache_slice_index_loop] at h
      rw [if_pos hne] at h
      obtain ⟨k, hk, h1, h2, h3⟩ := ih _ _ _ _ h
      refine ⟨k + 1, by omega, ?_, ?_, ?_⟩
      · rw [← h1]; congr 1; omega
      · rw [← h2]; congr 1; omega
      · intro j hj
        cases j with
        | zero => simpa using hne
        | succ j =>
          have := h3 j (by omega)
          have e1 : calls + 2 * (j + 1) = calls + 2 + 2 * j := by omega
          rw [e1]
          exact this
    · have heq : trial calls = trial (calls + 1) := by
        by_contra hcon; exact hne hcon
      simp only [get_cache_slice_index_loop] at h
      rw [if_neg hne] at h
      have hv : trial calls = v := by
        have := Option.some.inj h
        exact (Prod.mk.inj this).1
      exact ⟨0, by omega, by simpa using hv, by simpa [← heq] using hv,
        fun j hj => absurd hj (Nat.not_lt_zero j)⟩

/-- The retry loop of get_cache_slice_index from any state: when the first
agreeing pair of trials at or after calls is k rounds ahead, any fuel above k
makes the loop return the value of that pair. -/
theorem get_cache_slice_index_loop_complete (trial : Nat → Nat) (va : Nat) :
    ∀ (k calls : Nat) (out : List Msg),
      trial (calls + 2 * k) = trial (calls + 2 * k + 1) →
      (∀ j, j < k → trial (calls + 2 * j) ≠ trial (calls + 2 * j + 1)) →
      ∀ fuel, k < fuel →
        ∃ out2, get_cache_slice_index_loop trial va fuel calls out
          = some (trial (calls + 2 * k), out2) := by
  intro k
  induction k with
  | zero =>
    intro calls out hagree _ fuel hfuel
    obtain ⟨fuel, rfl⟩ : ∃ n, fuel = n + 1 := ⟨fuel - 1, by omega⟩
    have heq : trial calls = trial (calls + 1) := by simpa using hagree
    exact ⟨out, by simp [get_cache_slice_index_loop, heq]⟩
  | succ k ih =>
    intro calls out hagree hdis fuel hfuel
    obtain ⟨fuel, rfl⟩ : ∃ n, fuel = n + 1 := ⟨fuel - 1, by omega⟩
    have hne : trial calls ≠ trial (calls + 1) := by simpa using hdis 0 (by omega)
    have e1 : calls + 2 * (k + 1) = calls + 2 + 2 * k := by omega
    have hagree2 : trial (calls + 2 + 2 * k) = trial (calls + 2 + 2 * k + 1) := by
      rw [← e1]; exact hagree
    have hdis2 : ∀ j, j < k → trial (calls + 2 + 2 * j) ≠ trial (calls + 2 + 2 * j + 1) := by
      intro j hj
      have := hdis (j + 1) (by omega)
      have e2 : calls + 2 * (j + 1) = calls + 2 + 2 * j := by omega
      rw [e2] at this
      exact this
    obtain ⟨out2, h⟩ := ih (calls + 2) (out ++ [Msg.mismatch va (trial calls) (trial (calls + 1))])
      hagree2 hdis2 fuel (by omega)
    refine ⟨out2, ?_⟩
    simp only [get_cache_slice_index_loop]
    rw [if_pos hne, h, e1]

/-- C8: whenever get_cache_slice_index returns v, there is a round k whose two
trials t(2k) and t(2k+1) both equal v while the two trials of every earlier
round disagree; and such a round makes it return v once the fuel exceeds k, so
a disagreeing round is re-run and none of its values is returned. -/
theorem get_cache_slice_index_first_agreeing_round (trial : Nat → Nat) (va v : Nat) :
    (∀ fuel out, get_cache_slice_index trial va fuel = some (v, out) →
      ∃ k, k < fuel ∧ trial (2 * k) = v ∧ trial (2 * k + 1) = v ∧
        ∀ j, j < k → trial (2 * j) ≠ trial (2 * j + 1)) ∧
    (∀ k, trial (2 * k) = v → trial (2 * k + 1) = v →
      (∀ j, j < k → trial (2 * j) ≠ trial (2 * j + 1)) →
      ∀ fuel, k < fuel → ∃ out, get_cache_slice_index trial va fuel = some (v, out)) := by
  constructor
  · intro fuel out h
    obtain ⟨k, hk, h1, h2, h3⟩ := get_cache_slice_index_loop_sound trial va fuel 0 [] v out h
    refine ⟨k, hk, by simpa using h1, by simpa using h2, ?_⟩
    intro j hj
    simpa using h3 j hj
  · intro k h1 h2 h3 fuel hfuel
    have := get_cache_slice_index_loop_complete trial va k 0 []
      (by simp [h1, h2]) (by intro j hj; simpa using h3 j hj) fuel hfuel
    obtain ⟨out, hout⟩ := this
    refine ⟨out, ?_⟩
    unfold get_cache_slice_index
    rw [hout]
    simp [h1]

/-- C8 on the trials 1, 2, 3, 3, 3, ...: round 0 disagrees and is re-run, round
1 agrees on 3. -/
theorem get_cache_slice_index_first_agreeing_round_witness :
    get_cache_slice_index (fun i => if i = 0 then 1 else if i = 1 then 2 else 3) 7 5
      = some (3, [Msg.mismatch 7 1 2]) ∧
    ∃ k, k < 5 ∧
      (fun i => if i = 0 then 1 else if i = 1 then 2 else 3) (2 * k) = 3 ∧
      (fun i => if i = 0 then 1 else if i = 1 then 2 else 3) (2 * k + 1) = 3 ∧
      ∀ j, j < k →
        (fun i => if i = 0 then 1 else if i = 1 then 2 else 3) (2 * j) ≠
        (fun i : Nat => if i = 0 then 1 else if i = 1 then 2 else 3) (2 * j + 1) :=
  ⟨by decide,
   (get_cache_slice_index_first_agreeing_round
      (fun i => if i = 0 then 1 else if i = 1 then 2 else 3) 7 3).1 5
      [Msg.mismatch 7 1 2] (by decide)⟩

/-! ## Next address on a slice and set -/

/-- The scan of find_next_address_on_slice_and_set from any offset: an offset
it returns passed both tests of the loop condition. -/
theorem find_next_address_on_slice_and_set_loop_sound (mc : MachineConst)
    (slice : Nat → Nat) (va desired_slice desired_set : Nat) :
    ∀ (fuel offset D : Nat),
      find_next_address_on_slice_and_set_loop mc slice va desired_slice desired_set fuel offset
        = some (.returned D) →
      get_cache_set_index mc ((va + D) % U64) 3 = .returned desired_set ∧
      slice ((va + D) % U64) = desired_slice := by
  intro fuel
  induction fuel with
  | zero => intro offset D h; simp [find_next_address_on_slice_and_set_loop] at h
  | succ fuel ih =>
    intro offset D h
    rw [find_next_address_on_slice_and_set_loop] at h
    cases hset : get_cache_set_index mc ((va + offset) % U64) 3 with
    | exited status => simp [hset] at h
    | returned set_index =>
      simp only [hset] at h
      by_cases hcond : set_index ≠ desired_set ∨ desired_slice ≠ slice ((va + offset) % U64)
      · rw [if_pos hcond] at h
        exact ih _ _ h
      · rw [if_neg hcond] at h
        have hD : offset = D := by
          have := Option.some.inj h
          exact Outcome.returned.inj this
        subst hD
        have h1 : set_index = desired_set := by
          by_contra hc; exact hcond (Or.inl hc)
        have h2 : desired_slice = slice ((va + offset) % U64) := by
          by_contra hc; exact hcond (Or.inr hc)
        exact ⟨by rw [hset, h1], h2.symm⟩

/-- C9: when find_next_address_on_slice_and_set returns an offset D, the
address base + D (modulo 2^64) has LLC set index desired_set and lies on the
slice desired_slice. -/
theorem find_next_address_on_slice_and_set_sound (mc : MachineConst) (slice : Nat → Nat)
    (base desired_slice desired_set fuel D : Nat)
    (h : find_next_address_on_slice_and_set mc slice base desired_slice desired_set fuel
      = some (.returned D)) :
    get_cache_set_index mc ((base + D) % U64) 3 = .returned desired_set ∧
    slice ((base + D) % U64) = desired_slice :=
  find_next_address_on_slice_and_set_loop_sound mc slice base desired_slice desired_set
    fuel 0 D h

/-- C9 at the synthetic geometry, with the slice of an address taken to be its
line number modulo 4: from the base 0x1000 the scan for slice 2 and set 2
returns the offset 128. -/
theorem find_next_address_on_slice_and_set_sound_witness :
    find_next_address_on_slice_and_set synthetic (fun a => a / 64 % 4) 0x1000 2 2 3
      = some (.returned 128) ∧
    get_cache_set_index synthetic ((0x1000 + 128) % U64) 3 = .returned 2 ∧
    (fun a => a / 64 % 4) ((0x1000 + 128) % U64) = 2 :=
  ⟨by decide,
   find_next_address_on_slice_and_set_sound synthetic (fun a => a / 64 % 4) 0x1000 2 2 3 128
     (by decide)⟩

/-! ## Pinning -/

/-- C10, the code when sched_setaffinity reports failure (-1): pin_cpu ends
the process with EXIT_FAILURE, but the prober task still runs its burst of
100000 loads and records the elapsed time 350 - 100 = 250, and the loader
task still runs its 7 rounds of increments. -/
theorem pinning_failure_is_dropped_by_tasks :
    pin_cpu (fun _ => -1) 0 = .exited EXIT_FAILURE ∧
    probe_thread_timing (fun _ => -1) 100 350 ⟨0x1000, 100000, 0, 0⟩
      = .returned ⟨⟨0x1000, 100000, 250, 0⟩, 100000⟩ ∧
    load_thread_timing (fun _ => -1) 7 0 ⟨0x1000, 1⟩ = .returned 7 := by
  decide

/-! ## Busy wait -/

/-- The polling loop of wait_cycles from any state in which cycles is the
reading number calls - 1: when it returns, the last reading is at or above
end_ and every reading from that state on before the last is below end_. -/
theorem wait_cycles_loop_sound (get_time : Nat → Nat) (end_ : Nat) :
    ∀ (fuel calls cycles n last : Nat), 1 ≤ calls → cycles = get_time (calls - 1) →
      wait_cycles_loop get_time end_ fuel calls cycles = some (n, last) →
      calls ≤ n ∧ last = get_time (n - 1) ∧ end_ ≤ last ∧
        ∀ j, calls - 1 ≤ j → j < n - 1 → get_time j < end_ := by
  intro fuel
  induction fuel with
  | zero => intro calls cycles n last _ _ h; simp [wait_cycles_loop] at h
  | succ fuel ih =>
    intro calls cycles n last hcalls hcycles h
    rw [wait_cycles_loop] at h
    by_cases hlt : cycles < end_
    · rw [if_pos hlt] at h
      obtain ⟨h1, h2, h3, h4⟩ := ih (calls + 1) (get_time calls) n last (by omega)
        (by simp) h
      refine ⟨by omega, h2, h3, ?_⟩
      intro j hj1 hj2
      by_cases hj : j = calls - 1
      · rw [hj, ← hcycles]; exact hlt
      · exact h4 j (by omega) hj2
    · rw [if_neg hlt] at h
      have hpair := Option.some.inj h
      have hn : calls = n := (Prod.mk.inj hpair).1
      have hl : cycles = last := (Prod.mk.inj hpair).2
      subst hn hl
      exact ⟨Nat.le_refl _, hcycles, by omega, fun j hj1 hj2 => by omega⟩

/-- The polling loop of wait_cycles from any state in which cycles is the
reading number calls - 1: when some reading k from that state on is at or
above end_, the loop returns once the fuel reaches beyond that reading. -/
theorem wait_cycles_loop_returns (get_time : Nat → Nat) (end_ : Nat) :
    ∀ (fuel calls cycles k : Nat), 1 ≤ calls → cycles = get_time (calls - 1) →
      calls - 1 ≤ k → end_ ≤ get_time k → k + 1 < calls + fuel →
      ∃ r, wait_cycles_loop get_time end_ fuel calls cycles = some r := by
  intro fuel
  induction fuel with
  | zero => intro calls cycles k h1 _ h3 _ h5; omega
  | succ fuel ih =>
    intro calls cycles k hcalls hcycles hk hend hfuel
    rw [wait_cycles_loop]
    by_cases hlt : cycles < end_
    · rw [if_pos hlt]
      have hne : k ≠ calls - 1 := by
        intro hk2
        rw [hk2, ← hcycles] at hend
        omega
      exact ih (calls + 1) (get_time calls) k (by omega) (by simp) (by omega) hend (by omega)
    · rw [if_neg hlt]
      exact ⟨_, rfl⟩

/-- C11 as stated fails: with the readings 5, 6, 7, ... and the delay 2^64 - 1
the end of the wait wraps to 4, so wait_cycles returns after its first reading
5, when 0 cycles have passed, not 2^64 - 1. -/
theorem wait_cycles_wraps_counterexample :
    (∀ i : Nat, (fun i => 5 + i) i ≤ (fun i => 5 + i) (i + 1)) ∧
    wait_cycles (fun i => 5 + i) (2 ^ 64 - 1) 1 = some (1, 5) ∧
    ¬ (∀ fuel calls last, wait_cycles (fun i => 5 + i) (2 ^ 64 - 1) fuel = some (calls, last) →
        2 ^ 64 - 1 ≤ last - (fun i => 5 + i) 0) := by
  refine ⟨fun i => by simp, by decide, ?_⟩
  intro h
  have := h 1 1 5 (by decide)
  revert this
  decide

/-- C11 amended: when the first reading plus the delay stays below 2^64,
wait_cycles returns only after a reading at least delay above its first
reading, which is the last reading it takes, every reading before it being
below the first reading plus the delay; and it does return once some reading
is that high. -/
theorem wait_cycles_elapsed (get_time : Nat → Nat) (delay : Nat)
    (hnowrap : get_time 0 + delay < U64) :
    (∀ fuel calls last, wait_cycles get_time delay fuel = some (calls, last) →
      1 ≤ calls ∧ last = get_time (calls - 1) ∧
      get_time 0 + delay ≤ last ∧ delay ≤ last - get_time 0 ∧
      ∀ j, j < calls - 1 → get_time j < get_time 0 + delay) ∧
    (∀ k, get_time 0 + delay ≤ get_time k →
      ∀ fuel, k < fuel → ∃ calls last, wait_cycles get_time delay fuel = some (calls, last)) := by
  have hend : (get_time 0 + delay) % U64 = get_time 0 + delay := Nat.mod_eq_of_lt hnowrap
  constructor
  · intro fuel calls last h
    simp only [wait_cycles, hend] at h
    obtain ⟨h1, h2, h3, h4⟩ := wait_cycles_loop_sound get_time _ fuel 1 (get_time 0) calls last
      (Nat.le_refl _) rfl h
    exact ⟨h1, h2, h3, by omega, fun j hj => h4 j (by omega) hj⟩
  · intro k hk fuel hfuel
    obtain ⟨⟨calls, last⟩, hr⟩ := wait_cycles_loop_returns get_time (get_time 0 + delay) fuel 1
      (get_time 0) k (Nat.le_refl _) rfl (by omega) hk (by omega)
    exact ⟨calls, last, by simp only [wait_cycles, hend]; exact hr⟩

/-- C11 amended, on the readings 10, 13, 16, 19, ... with the delay 7: the
wait ends at its fourth reading, 19. -/
theorem wait_cycles_elapsed_witness :
    wait_cycles (fun i => 10 + 3 * i) 7 5 = some (4, 19) ∧
    (1 ≤ 4 ∧ 19 = (fun i => 10 + 3 * i) (4 - 1) ∧
      (fun i => 10 + 3 * i) 0 + 7 ≤ 19 ∧ 7 ≤ 19 - (fun i => 10 + 3 * i) 0 ∧
      ∀ j, j < 4 - 1 → (fun i => 10 + 3 * i) j < (fun i => 10 + 3 * i) 0 + 7) :=
  ⟨by decide,
   (wait_cycles_elapsed (fun i => 10 + 3 * i) 7 (by decide)).1 5 4 19 (by decide)⟩

/-! ## The scan for the next address, step by step -/

/-- One step of the scan of find_next_address_on_slice_and_set: the offset is
returned when the address at it has the desired set and slice, and otherwise
the scan goes on from the next line. -/
theorem find_next_address_on_slice_and_set_loop_succ (mc : MachineConst)
    (slice : Nat → Nat) (va desired_slice desired_set fuel offset : Nat) :
    find_next_address_on_slice_and_set_loop mc slice va desired_slice desired_set
        (fuel + 1) offset =
      if get_cache_set_index mc ((va + offset) % U64) 3 = .returned desired_set ∧
          slice ((va + offset) % U64) = desired_slice then
        some (.returned offset)
      else
        find_next_address_on_slice_and_set_loop mc slice va desired_slice desired_set fuel
          ((offset + mc.CACHE_BLOCK_SIZE) % U64) := by
  rw [find_next_address_on_slice_and_set_loop]
  cases hset : get_cache_set_index mc ((va + offset) % U64) 3 with
  | exited status => simp [get_cache_set_index] at hset
  | returned set_index =>
    simp only []
    by_cases h1 : set_index = desired_set
    · by_cases h2 : desired_slice = slice ((va + offset) % U64)
      · simp [h1, h2]
      · have h3 : ¬ slice ((va + offset) % U64) = desired_slice := fun h => h2 h.symm
        simp [h1, h2, h3]
    · have h4 : ¬ (Outcome.returned set_index = Outcome.returned desired_set) :=
        fun h => h1 (Outcome.returned.inj h)
      simp [h1, h4]

/-- The address the scan tests k lines after an offset that one step moved on,
wrapped modulo 2^64, is the address k + 1 lines after the offset. -/
theorem scan_address_succ (va offset c k : Nat) :
    (va + (offset + c) % U64 + k * c) % U64 = (va + offset + (k + 1) * c) % U64 := by
  have e1 : va + (offset + c) % U64 + k * c = (offset + c) % U64 + (va + k * c) := by omega
  have e2 : va + offset + (k + 1) * c = offset + c + (va + k * c) := by
    rw [Nat.succ_mul]; omega
  rw [e1, e2, Nat.mod_add_mod]

/-- The scan from any offset below 2^64: a returned offset lies k lines
after the start, for a k below the fuel, and the address at each of the lines
before it misses the desired set or the desired slice. -/
theorem find_next_address_on_slice_and_set_loop_trace (mc : MachineConst)
    (slice : Nat → Nat) (va desired_slice desired_set : Nat) :
    ∀ (fuel offset D : Nat), offset < U64 →
      find_next_address_on_slice_and_set_loop mc slice va desired_slice desired_set fuel offset
        = some (.returned D) →
      ∃ k, k < fuel ∧ D = (offset + k * mc.CACHE_BLOCK_SIZE) % U64 ∧
        ∀ j, j < k →
          ¬ (get_cache_set_index mc ((va + offset + j * mc.CACHE_BLOCK_SIZE) % U64) 3
                = .returned desired_set ∧
             slice ((va + offset + j * mc.CACHE_BLOCK_SIZE) % U64) = desired_slice) := by
  intro fuel
  induction fuel with
  | zero => intro offset D _ h; simp [find_next_address_on_slice_and_set_loop] at h
  | succ fuel ih =>
    intro offset D hoff h
    rw [find_next_address_on_slice_and_set_loop_succ] at h
    by_cases hpass : get_cache_set_index mc ((va + offset) % U64) 3 = .returned desired_set ∧
        slice ((va + offset) % U64) = desired_slice
    · rw [if_pos hpass] at h
      have hD : offset = D := Outcome.returned.inj (Option.some.inj h)
      subst hD
      exact ⟨0, by omega, by simp [Nat.mod_eq_of_lt hoff], fun j hj => absurd hj (Nat.not_lt_zero j)⟩
    · rw [if_neg hpass] at h
      have hU : 0 < U64 := by decide
      obtain ⟨k, hk, hD, hfail⟩ := ih _ D (Nat.mod_lt _ hU) h
      refine ⟨k + 1, by omega, ?_, ?_⟩
      · have := scan_address_succ 0 offset mc.CACHE_BLOCK_SIZE k
        simp only [Nat.zero_add] at this
        rw [hD, this]
      · intro j hj
        cases j with
        | zero => simpa using hpass
        | succ j =>
          have hj2 := hfail j (by omega)
          rw [scan_address_succ] at hj2
          exact hj2

/-- The scan from any offset: when the address k lines after the start has
the desired set and slice, the scan returns an offset once the fuel exceeds
k. -/
theorem find_next_address_on_slice_and_set_loop_returns (mc : MachineConst)
    (slice : Nat → Nat) (va desired_slice desired_set : Nat) :
    ∀ (fuel offset k : Nat), k < fuel →
      (get_cache_set_index mc ((va + offset + k * mc.CACHE_BLOCK_SIZE) % U64) 3
          = .returned desired_set ∧
        slice ((va + offset + k * mc.CACHE_BLOCK_SIZE) % U64) = desired_slice) →
      ∃ D, find_next_address_on_slice_and_set_loop mc slice va desired_slice desired_set
        fuel offset = some (.returned D) := by
  intro fuel
  induction fuel with
  | zero => intro offset k hk _; omega
  | succ fuel ih =>
    intro offset k hk hk2
    rw [find_next_address_on_slice_and_set_loop_succ]
    by_cases hpass : get_cache_set_index mc ((va + offset) % U64) 3 = .returned desired_set ∧
        slice ((va + offset) % U64) = desired_slice
    · rw [if_pos hpass]
      exact ⟨offset, rfl⟩
    · rw [if_neg hpass]
      cases k with
      | zero => exact absurd (by simpa using hk2) hpass
      | succ k =>
        rw [← scan_address_succ] at hk2
        exact ih _ k (by omega) hk2

/-- The scan from any offset: when no line after the start has the desired
set and slice, the scan is out of fuel for every fuel. -/
theorem find_next_address_on_slice_and_set_loop_never (mc : MachineConst)
    (slice : Nat → Nat) (va desired_slice desired_set : Nat) :
    ∀ (fuel offset : Nat),
      (∀ k, ¬ (get_cache_set_index mc ((va + offset + k * mc.CACHE_BLOCK_SIZE) % U64) 3
                = .returned desired_set ∧
             slice ((va + offset + k * mc.CACHE_BLOCK_SIZE) % U64) = desired_slice)) →
      find_next_address_on_slice_and_set_loop mc slice va desired_slice desired_set
        fuel offset = none := by
  intro fuel
  induction fuel with
  | zero => intro offset _; rfl
  | succ fuel ih =>
    intro offset hnone
    rw [find_next_address_on_slice_and_set_loop_succ]
    have h0 := hnone 0
    simp only [Nat.zero_mul, Nat.add_zero] at h0
    rw [if_neg h0]
    apply ih
    intro k
    have := hnone (k + 1)
    rw [← scan_address_succ] at this
    exact this

/-- C12: an offset D that find_next_address_on_slice_and_set returns is k
lines of CACHE_BLOCK_SIZE bytes counted modulo 2^64, hence a multiple of
CACHE_BLOCK_SIZE when the line size divides 2^64 (a power of two such as 64),
and every multiple of CACHE_BLOCK_SIZE below D misses the desired LLC set or
the desired slice. -/
theorem find_next_address_on_slice_and_set_least (mc : MachineConst) (slice : Nat → Nat)
    (base desired_slice desired_set fuel D : Nat)
    (h : find_next_address_on_slice_and_set mc slice base desired_slice desired_set fuel
      = some (.returned D)) :
    (∃ k, k < fuel ∧ D = (k * mc.CACHE_BLOCK_SIZE) % U64) ∧
    (mc.CACHE_BLOCK_SIZE ∣ U64 → mc.CACHE_BLOCK_SIZE ∣ D) ∧
    (∀ m, mc.CACHE_BLOCK_SIZE ∣ m → m < D →
      ¬ (get_cache_set_index mc ((base + m) % U64) 3 = .returned desired_set ∧
         slice ((base + m) % U64) = desired_slice)) := by
  obtain ⟨k, hk, hD, hfail⟩ := find_next_address_on_slice_and_set_loop_trace mc slice base
    desired_slice desired_set fuel 0 D (by decide) h
  rw [Nat.zero_add] at hD
  refine ⟨⟨k, hk, hD⟩, ?_, ?_⟩
  · intro hline
    rw [hD]
    exact (Nat.dvd_mod_iff hline).2 (Nat.dvd_mul_left _ _)
  · intro m hm hlt
    obtain ⟨i, rfl⟩ := hm
    have hle : D ≤ k * mc.CACHE_BLOCK_SIZE := by
      rw [hD]; exact Nat.mod_le _ _
    have hik : i < k := by
      have h1 : mc.CACHE_BLOCK_SIZE * i < mc.CACHE_BLOCK_SIZE * k := by
        rw [Nat.mul_comm mc.CACHE_BLOCK_SIZE k]; omega
      exact Nat.lt_of_mul_lt_mul_left h1
    have := hfail i hik
    rw [Nat.add_zero, Nat.mul_comm i] at this
    exact this

/-- C12 at the synthetic geometry, with the slice of an address taken to be
its line number modulo 4: the returned offset 128 is a multiple of 64, and 0
and 64 each miss the set 2 or the slice 2. -/
theorem find_next_address_on_slice_and_set_least_witness :
    find_next_address_on_slice_and_set synthetic (fun a => a / 64 % 4) 0x1000 2 2 3
      = some (.returned 128) ∧
    synthetic.CACHE_BLOCK_SIZE ∣ 128 ∧
    (∀ m, synthetic.CACHE_BLOCK_SIZE ∣ m → m < 128 →
      ¬ (get_cache_set_index synthetic ((0x1000 + m) % U64) 3 = .returned 2 ∧
         (fun a => a / 64 % 4) ((0x1000 + m) % U64) = 2)) :=
  ⟨by decide,
   (find_next_address_on_slice_and_set_least synthetic (fun a => a / 64 % 4) 0x1000 2 2 3 128
      (by decide)).2.1 (by decide),
   (find_next_address_on_slice_and_set_least synthetic (fun a => a / 64 % 4) 0x1000 2 2 3 128
      (by decide)).2.2⟩

/-- C13: when the address k lines after the base (modulo 2^64) has the desired
LLC set and slice, find_next_address_on_slice_and_set returns an offset for
every fuel above k; and when no k is such a line, it is still scanning after
any number of steps: it returns nothing and does not exit. -/
theorem find_next_address_on_slice_and_set_terminates_iff_hit (mc : MachineConst)
    (slice : Nat → Nat) (base desired_slice desired_set : Nat) :
    (∀ k,
      (get_cache_set_index mc ((base + k * mc.CACHE_BLOCK_SIZE) % U64) 3
          = .returned desired_set ∧
        slice ((base + k * mc.CACHE_BLOCK_SIZE) % U64) = desired_slice) →
      ∀ fuel, k < fuel →
        ∃ D, find_next_address_on_slice_and_set mc slice base desired_slice desired_set fuel
          = some (.returned D)) ∧
    ((∀ k,
      ¬ (get_cache_set_index mc ((base + k * mc.CACHE_BLOCK_SIZE) % U64) 3
            = .returned desired_set ∧
          slice ((base + k * mc.CACHE_BLOCK_SIZE) % U64) = desired_slice)) →
      ∀ fuel,
        find_next_address_on_slice_and_set mc slice base desired_slice desired_set fuel
          = none) := by
  constructor
  · intro k hk fuel hfuel
    exact find_next_address_on_slice_and_set_loop_returns mc slice base desired_slice
      desired_set fuel 0 k hfuel (by simpa using hk)
  · intro hnone fuel
    exact find_next_address_on_slice_and_set_loop_never mc slice base desired_slice
      desired_set fuel 0 (by intro k; simpa using hnone k)

/-- C13 at the synthetic geometry: two lines after the base 0x1000 the set is
2 and the slice is 2, and the scan returns with fuel 3; for the slice 9, which
no address has, the scan is still running after 1000 steps. -/
theorem find_next_address_on_slice_and_set_terminates_iff_hit_witness :
    (∃ D, find_next_address_on_slice_and_set synthetic (fun a => a / 64 % 4) 0x1000 2 2 3
      = some (.returned D)) ∧
    find_next_address_on_slice_and_set synthetic (fun a => a / 64 % 4) 0x1000 9 2 1000
      = none :=
  ⟨(find_next_address_on_slice_and_set_terminates_iff_hit synthetic (fun a => a / 64 % 4)
      0x1000 2 2).1 2 (by decide) 3 (by decide),
   (find_next_address_on_slice_and_set_terminates_iff_hit synthetic (fun a => a / 64 % 4)
      0x1000 9 2).2 (fun k hk => by
        have h9 := hk.2
        simp only [] at h9
        omega) 1000⟩

/-! ## Persistent disagreement -/

/-- The retry loop of get_cache_slice_index from any state: when the next n
rounds all disagree, n units of fuel are spent on them, n lines are printed,
and the loop goes on from call number calls + 2 n. -/
theorem get_cache_slice_index_loop_retries (trial : Nat → Nat) (va : Nat) :
    ∀ (n m calls : Nat) (out : List Msg),
      (∀ j, j < n → trial (calls + 2 * j) ≠ trial (calls + 2 * j + 1)) →
      ∃ out2, out2.length = out.length + n ∧
        get_cache_slice_index_loop trial va (n + m) calls out
          = get_cache_slice_index_loop trial va m (calls + 2 * n) out2 := by
  intro n
  induction n with
  | zero => intro m calls out _; exact ⟨out, rfl, by simp⟩
  | succ n ih =>
    intro m calls out hdis
    have hne : trial calls ≠ trial (calls + 1) := by simpa using hdis 0 (by omega)
    have hdis2 : ∀ j, j < n → trial (calls + 2 + 2 * j) ≠ trial (calls + 2 + 2 * j + 1) := by
      intro j hj
      have := hdis (j + 1) (by omega)
      have e : calls + 2 * (j + 1) = calls + 2 + 2 * j := by omega
      rw [e] at this
      exact this
    obtain ⟨out2, hlen, hrun⟩ := ih m (calls + 2)
      (out ++ [Msg.mismatch va (trial calls) (trial (calls + 1))]) hdis2
    refine ⟨out2, ?_, ?_⟩
    · rw [hlen]; simp; omega
    · have e1 : n + 1 + m = (n + m) + 1 := by omega
      have e2 : calls + 2 * (n + 1) = calls + 2 + 2 * n := by omega
      rw [e1, e2, ← hrun]
      simp only [get_cache_slice_index_loop]
      rw [if_pos hne]

/-- C14: when the two trials of every round disagree, get_cache_slice_index
produces no value for any fuel, and after any number n of rounds it has
printed n mismatch lines and is at the start of round n, trying again. -/
theorem get_cache_slice_index_never_returns (trial : Nat → Nat) (va : Nat)
    (hdis : ∀ k, trial (2 * k) ≠ trial (2 * k + 1)) :
    (∀ fuel, get_cache_slice_index trial va fuel = none) ∧
    (∀ n m, ∃ out, out.length = n ∧
      get_cache_slice_index trial va (n + m)
        = get_cache_slice_index_loop trial va m (2 * n) out) := by
  constructor
  · intro fuel
    cases hres : get_cache_slice_index trial va fuel with
    | none => rfl
    | some r =>
      obtain ⟨v, out⟩ := r
      obtain ⟨k, _, h1, h2, _⟩ := get_cache_slice_index_loop_sound trial va fuel 0 [] v out hres
      have := hdis k
      simp only [Nat.zero_add] at h1 h2
      rw [h1, h2] at this
      exact absurd rfl this
  · intro n m
    obtain ⟨out, hlen, hrun⟩ := get_cache_slice_index_loop_retries trial va n m 0 []
      (by intro j _; simpa using hdis j)
    refine ⟨out, by simpa using hlen, ?_⟩
    simpa [get_cache_slice_index] using hrun

/-- C14 on the trials 0, 1, 2, 3, ...: every round disagrees, and 1000 rounds
produce no value. -/
theorem get_cache_slice_index_never_returns_witness :
    get_cache_slice_index (fun i => i) 7 1000 = none :=
  (get_cache_slice_index_never_returns (fun i => i) 7 (fun k => by simp)).1 1000

/-! ## The sentinel and the first minimum -/

/-- C15: find_closest_slice returns 2^64 - 1 exactly when no prober core (an
even core below NUM_CORES) records a time below 1000000000, in particular
when NUM_CORES is at most 0; otherwise it returns a prober core whose time is
a minimum over the prober cores and which is the lowest-numbered prober core
with a time that low. -/
theorem find_closest_slice_sentinel_or_first_minimum (mc : MachineConst)
    (elapsed : Nat → Nat) :
    (find_closest_slice mc elapsed = some (U64 - 1) ↔
      ∀ p : Nat, p % 2 = 0 → (p : Int) < mc.NUM_CORES → 1000000000 ≤ elapsed p) ∧
    (mc.NUM_CORES ≤ 0 → find_closest_slice mc elapsed = some (U64 - 1)) ∧
    ((∃ q : Nat, q % 2 = 0 ∧ (q : Int) < mc.NUM_CORES ∧ elapsed q < 1000000000) →
      ∃ c : Nat, find_closest_slice mc elapsed = some c ∧
        c % 2 = 0 ∧ (c : Int) < mc.NUM_CORES ∧
        (∀ p : Nat, p % 2 = 0 → (p : Int) < mc.NUM_CORES → elapsed c ≤ elapsed p) ∧
        (∀ p : Nat, p % 2 = 0 → (p : Int) < mc.NUM_CORES → elapsed p ≤ elapsed c → c ≤ p)) := by
  obtain ⟨r, hr, hcase⟩ := find_closest_slice_loop_spec mc elapsed (mc.NUM_CORES.toNat + 1) 0
    1000000000 (U64 - 1) (by omega) (by omega)
  have hodd : (U64 - 1) % 2 = 1 := by decide
  have hiff : find_closest_slice mc elapsed = some (U64 - 1) ↔
      ∀ p : Nat, p % 2 = 0 → (p : Int) < mc.NUM_CORES → 1000000000 ≤ elapsed p := by
    constructor
    · intro hsent p hp2 hpN
      have hrs : r = U64 - 1 := by
        have h1 : find_closest_slice mc elapsed = some r := hr
        rw [hsent] at h1
        exact (Option.some.inj h1).symm
      rcases hcase with ⟨_, hall⟩ | ⟨_, hpar, _, _, _, _⟩
      · exact hall p (Nat.zero_le _) (by omega) hpN
      · rw [hrs] at hpar; omega
    · intro hall
      rcases hcase with ⟨hrs, _⟩ | ⟨_, hpar, hrN, hrlt, _, _⟩
      · rw [← hrs]; exact hr
      · have := hall r (by omega) hrN
        omega
  refine ⟨hiff, ?_, ?_⟩
  · intro hN
    exact hiff.2 (fun p _ hpN => by omega)
  · rintro ⟨q, hq2, hqN, hqlt⟩
    refine ⟨r, hr, ?_⟩
    rcases hcase with ⟨_, hall⟩ | ⟨_, hpar, hrN, _, hmin, hfirst⟩
    · have := hall q (Nat.zero_le _) (by omega) hqN
      omega
    · refine ⟨by omega, hrN, ?_, ?_⟩
      · intro p hp2 hpN
        exact hmin p (Nat.zero_le _) (by omega) hpN
      · intro p hp2 _ hle
        by_contra hcon
        have := hfirst p (Nat.zero_le _) (by omega) (by omega)
        omega

/-- C15 at NUM_CORES = 4 with 5 cycles on every core: the prober cores 0 and 2
tie, and the result is core 0. -/
theorem find_closest_slice_sentinel_or_first_minimum_witness :
    find_closest_slice synthetic (fun _ => 5) = some 0 ∧
    ∃ c : Nat, find_closest_slice synthetic (fun _ => 5) = some c ∧
      c % 2 = 0 ∧ (c : Int) < synthetic.NUM_CORES ∧
      (∀ p : Nat, p % 2 = 0 → (p : Int) < synthetic.NUM_CORES →
        (fun _ : Nat => 5) c ≤ (fun _ : Nat => 5) p) ∧
      (∀ p : Nat, p % 2 = 0 → (p : Int) < synthetic.NUM_CORES →
        (fun _ : Nat => 5) p ≤ (fun _ : Nat => 5) c → c ≤ p) :=
  ⟨by decide,
   (find_closest_slice_sentinel_or_first_minimum synthetic (fun _ => 5)).2.2
     ⟨0, by decide, by decide, by decide⟩⟩

end Util
